import Mathlib

/-!
# Verification of the TRGI_SimCore lattice-simulation core

Shallow embedding of the quantum/classical lattice simulator:

* `src/core/infon_qubit.py` — the `Qubit` amplitude pair and its normalizing
  constructor (floats are modelled as real numbers, complex floats as `ℂ`);
* `src/core/manifold.py` — the scalar `Manifold` (grid of floats, modelled as
  exact rationals since the classical dynamics only ever compares and adds the
  cell values), boundary handling, neighbor sums;
* `src/core/dynamics.py` — the classical `GameOfLifeTRGI` step and the quantum
  `HamiltonianDynamics` (local pair Hamiltonian, Trotter sweeps, SVD
  reprojection, with `np.linalg.svd` treated as a parameter characterized by
  the contract LAPACK guarantees);
* `src/core/geometry.py` — Bloch vectors and the informational-distance metric;
* `src/core/t_tensor.py` — the local energy density `T00`;
* `src/core/metrics.py` — the Shannon entropy observable.

The qubit-mode lattice container itself (construction of a grid of `Qubit`s,
`_wrap`, qubit `get`/`set`) is required by the quantum modules but is absent
from `src/core/manifold.py`, which only builds scalar grids; those pieces are
modelled from the specification and marked `Modelled from the spec` below.
-/

namespace TRGISim

open scoped Matrix

/-! ## Qubit (src/core/infon_qubit.py) -/

/-- A quantum infon state: the amplitude pair `state = [a, b]` of
`|ψ⟩ = a|0⟩ + b|1⟩` (class `Qubit`, src/core/infon_qubit.py). -/
structure Qubit where
  a : ℂ
  b : ℂ

/-- `np.hypot x y = sqrt (x² + y²)`. -/
noncomputable def npHypot (x y : ℝ) : ℝ := Real.sqrt (x ^ 2 + y ^ 2)

/-- The tail of `Qubit.__init__` once both amplitudes are determined:
`norm = np.hypot(abs a, abs b)`; below `1e-9` snap to `(1, 0)`, otherwise
divide the pair by `norm`. -/
noncomputable def mkQubit (a b : ℂ) : Qubit :=
  let nrm := npHypot (Complex.abs a) (Complex.abs b)
  if nrm < 1e-9 then ⟨1, 0⟩ else ⟨a / (nrm : ℂ), b / (nrm : ℂ)⟩

/-- `Qubit.__init__(a, b)` (src/core/infon_qubit.py lines 14–36): the four
argument patterns. The both-`None` branch samples Bloch-sphere angles
`θ = arccos (2u − 1)`, `φ = 2πv` from uniform draws `u`, `v`; the draws are
passed explicitly so the construction is a deterministic function. -/
noncomputable def Qubit.build (a? b? : Option ℂ) (u v : ℝ) : Qubit :=
  match a?, b? with
  | none, none =>
      let θ := Real.arccos (2 * u - 1)
      let φ := 2 * Real.pi * v
      mkQubit ((Real.cos (θ / 2) : ℝ) : ℂ)
        (Complex.exp ((φ : ℝ) * Complex.I) * ((Real.sin (θ / 2) : ℝ) : ℂ))
  | none, some b => mkQubit ((Real.sqrt (1 - Complex.abs b ^ 2) : ℝ) : ℂ) b
  | some a, none => mkQubit a ((Real.sqrt (1 - Complex.abs a ^ 2) : ℝ) : ℂ)
  | some a, some b => mkQubit a b

/-- `|a|² + |b|²` of the stored state. -/
noncomputable def Qubit.normSq (q : Qubit) : ℝ :=
  Complex.abs q.a ^ 2 + Complex.abs q.b ^ 2

/-- The `p0` property: probability of measuring `|0⟩`
(src/core/infon_qubit.py). -/
noncomputable def Qubit.p0 (q : Qubit) : ℝ := Complex.abs q.a ^ 2

/-- The stored state as the 2-vector `np.array([a, b])`. -/
def Qubit.state (q : Qubit) : Fin 2 → ℂ := ![q.a, q.b]

/-! ## Scalar manifold (src/core/manifold.py) -/

/-- Boundary policy fixed at construction. -/
inductive BoundaryCond where
  | periodic
  | fixed
deriving DecidableEq

/-- The Python exceptions raised by the manifold. -/
inductive SimError where
  | valueError : SimError
  | notImplementedError : SimError
  | indexError : SimError
deriving DecidableEq

instance {ε α : Type} [DecidableEq ε] [DecidableEq α] : DecidableEq (Except ε α)
  | .error e, .error f =>
      if h : e = f then .isTrue (by rw [h])
      else .isFalse (fun hh => h (Except.error.inj hh))
  | .error _, .ok _ => .isFalse (fun hh => Except.noConfusion hh)
  | .ok _, .error _ => .isFalse (fun hh => Except.noConfusion hh)
  | .ok a, .ok b =>
      if h : a = b then .isTrue (by rw [h])
      else .isFalse (fun hh => h (Except.ok.inj hh))

/-- Entry `(r, c)` of a 2-D grid stored as a list of rows. -/
def gridAt (g : List (List ℚ)) (r c : ℕ) : ℚ := (g.getD r []).getD c 0

/-- Overwrite entry `(r, c)` of a 2-D grid. -/
def setGrid (g : List (List ℚ)) (r c : ℕ) (v : ℚ) : List (List ℚ) :=
  g.set r ((g.getD r []).set c v)

/-- The discrete 2-D manifold of scalar infons (class `Manifold`,
src/core/manifold.py). Cell values are floats holding exact small rationals in
every computation the classical dynamics performs, so they are modelled as
`ℚ` to keep the grid decidable. -/
structure Manifold where
  rows : ℕ
  cols : ℕ
  infon_type : String
  boundary_conditions : BoundaryCond
  grid : List (List ℚ)
deriving DecidableEq

/-- `Manifold.__init__` (src/core/manifold.py lines 8–29): `'scalar'` builds a
zero-filled `rows × cols` grid; any other infon type raises
`NotImplementedError`. (The 2-tuple arity check on `dimensions` is made
vacuous by the `ℕ × ℕ` argument type.) -/
def Manifold.build (dimensions : ℕ × ℕ) (infon_type : String)
    (boundary_conditions : BoundaryCond) : Except SimError Manifold :=
  if infon_type = "scalar" then
    .ok { rows := dimensions.1
          cols := dimensions.2
          infon_type := infon_type
          boundary_conditions := boundary_conditions
          grid := List.replicate dimensions.1 (List.replicate dimensions.2 0) }
  else
    .error .notImplementedError

/-- `Manifold._apply_boundary_conditions` (src/core/manifold.py lines 61–71):
periodic reduces modulo the dimensions (Python `%`, i.e. `Int.emod`, which is
nonnegative for positive modulus); fixed raises `IndexError` out of range. -/
def Manifold.apply_boundary_conditions (m : Manifold) (r c : ℤ) :
    Except SimError (ℤ × ℤ) :=
  match m.boundary_conditions with
  | .periodic => .ok (r % (m.rows : ℤ), c % (m.cols : ℤ))
  | .fixed =>
      if 0 ≤ r ∧ r < (m.rows : ℤ) ∧ 0 ≤ c ∧ c < (m.cols : ℤ) then .ok (r, c)
      else .error .indexError

/-- `Manifold.get_infon_state` (src/core/manifold.py lines 73–94): periodic
wraps through `_apply_boundary_conditions` and reads; fixed reads in range and
raises `IndexError` otherwise. -/
def Manifold.get_infon_state (m : Manifold) (position : ℤ × ℤ) :
    Except SimError ℚ :=
  match m.boundary_conditions with
  | .periodic =>
      match m.apply_boundary_conditions position.1 position.2 with
      | .ok rc => .ok (gridAt m.grid rc.1.toNat rc.2.toNat)
      | .error e => .error e
  | .fixed =>
      if 0 ≤ position.1 ∧ position.1 < (m.rows : ℤ) ∧
         0 ≤ position.2 ∧ position.2 < (m.cols : ℤ) then
        .ok (gridAt m.grid position.1.toNat position.2.toNat)
      else .error .indexError

/-- `Manifold.set_infon_state` (src/core/manifold.py lines 96–109): writes only
when the raw position is inside the real bounds — no boundary wrap is applied
("Não aplicamos condições de contorno aqui"); out of bounds it prints a
warning and leaves the grid unchanged. -/
def Manifold.set_infon_state (m : Manifold) (position : ℤ × ℤ) (value : ℚ) :
    Manifold :=
  if 0 ≤ position.1 ∧ position.1 < (m.rows : ℤ) ∧
     0 ≤ position.2 ∧ position.2 < (m.cols : ℤ) then
    { m with grid := setGrid m.grid position.1.toNat position.2.toNat value }
  else m

/-- The eight Moore-neighborhood offsets, in the `dr`-major order of the
source loops. -/
def mooreOffsets : List (ℤ × ℤ) :=
  [(-1, -1), (-1, 0), (-1, 1), (0, -1), (0, 1), (1, -1), (1, 0), (1, 1)]

/-- `Manifold.get_neighbors_sum` (src/core/manifold.py lines 112–148): sum of
the eight Moore neighbors, wrapped under periodic boundaries; under fixed
boundaries out-of-range neighbors contribute zero. -/
def Manifold.get_neighbors_sum (m : Manifold) (position : ℤ × ℤ) : ℚ :=
  mooreOffsets.foldl
    (fun acc d =>
      let r := position.1 + d.1
      let c := position.2 + d.2
      match m.boundary_conditions with
      | .periodic =>
          acc + gridAt m.grid (r % (m.rows : ℤ)).toNat (c % (m.cols : ℤ)).toNat
      | .fixed =>
          if 0 ≤ r ∧ r < (m.rows : ℤ) ∧ 0 ≤ c ∧ c < (m.cols : ℤ) then
            acc + gridAt m.grid r.toNat c.toNat
          else acc)
    0

/-! ## Classical dynamics (src/core/dynamics.py, class `GameOfLifeTRGI`) -/

/-- Python `int()` truncation toward zero of a float (here an exact
rational). -/
def pyInt (q : ℚ) : ℤ := Int.sign q.num * ((q.num.natAbs / q.den : ℕ) : ℤ)

/-- Python's `x in list` membership test on integer rule lists. -/
def pyMem (n : ℤ) : List ℤ → Bool
  | [] => false
  | x :: xs => if x = n then true else pyMem n xs

/-- Default birth rule of `GameOfLifeTRGI.__init__`: `rule_b or [3]`. -/
def GameOfLifeTRGI.default_rule_b : List ℤ := [3]

/-- Default survival rule of `GameOfLifeTRGI.__init__`: `rule_s or [2, 3]`. -/
def GameOfLifeTRGI.default_rule_s : List ℤ := [2, 3]

/-- `GameOfLifeTRGI.step` (src/core/dynamics.py lines 39–52): a synchronous
whole-grid update — every new cell is computed from the frozen pre-step grid
(`new_grid = m.grid.copy()` is only written, never read) and the new grid is
installed at the end. The neighbor count calls `m.neighbors_sum`; that method
is absent from src/core/manifold.py, whose `get_neighbors_sum` has exactly the
role the spec gives `NeighborSum`, so the call is modelled by
`Manifold.get_neighbors_sum`. -/
def GameOfLifeTRGI.step (rule_b rule_s : List ℤ) (m : Manifold) : Manifold :=
  { m with grid := m.grid.mapIdx fun r row => row.mapIdx fun c old =>
      let n := pyInt (m.get_neighbors_sum ((r : ℤ), (c : ℤ)))
      if old = 1 then (if pyMem n rule_s then old else 0)
      else (if pyMem n rule_b then 1 else old) }

/-! ## Qubit-mode lattice

The quantum modules (`HamiltonianDynamics`, `EmergentGeometry`, `TTensor`,
`shannon_entropy`) require a manifold whose cells hold `Qubit`s and a `_wrap`
method; `src/core/manifold.py` provides neither (its constructor rejects any
non-scalar infon type). The container is therefore modelled from the spec. -/

/-- Modelled from the spec: the qubit-mode Lattice of §4.2 — "qubit mode fills
each cell with an independently sampled QuantumState"; absent from
src/core/manifold.py. Cells are arbitrary `Qubit`s (the sampled states are a
special case). Dimensions are positive (a lattice owns at least one cell). -/
structure QManifold where
  rows : ℕ
  cols : ℕ
  rows_pos : 0 < rows
  cols_pos : 0 < cols
  grid : Fin rows → Fin cols → Qubit

/-- Periodic index reduction `i % n` (Python `%`, nonnegative for `n > 0`). -/
def wrapIdx (n : ℕ) (hn : 0 < n) (i : ℤ) : Fin n :=
  ⟨(i % (n : ℤ)).toNat, by
    have hne : (n : ℤ) ≠ 0 := by exact_mod_cast hn.ne'
    have h1 : 0 ≤ i % (n : ℤ) := Int.emod_nonneg i hne
    have h2 : i % (n : ℤ) < (n : ℤ) := Int.emod_lt_of_pos i (by exact_mod_cast hn)
    omega⟩

/-- Modelled from the spec: `Wrap(r, c)` for a periodic qubit lattice —
"Periodic: modulo reduction, always succeeds" (§4.2). This is the
`Manifold._wrap` called by src/core/dynamics.py and src/core/t_tensor.py but
missing from src/core/manifold.py (whose periodic
`_apply_boundary_conditions` computes the same reduction). -/
def QManifold.wrap (m : QManifold) (r c : ℤ) : Fin m.rows × Fin m.cols :=
  (wrapIdx m.rows m.rows_pos r, wrapIdx m.cols m.cols_pos c)

/-- `wrap` with the result re-read as integer coordinates, as the callers pass
it around. -/
def QManifold.wrapZ (m : QManifold) (r c : ℤ) : ℤ × ℤ :=
  (((m.wrap r c).1 : ℕ), ((m.wrap r c).2 : ℕ))

/-- Modelled from the spec: qubit-mode `get_infon_state` — "Get/Set(pos,
value): wraps the position first" (§4.2). -/
def QManifold.get (m : QManifold) (pos : ℤ × ℤ) : Qubit :=
  m.grid (m.wrap pos.1 pos.2).1 (m.wrap pos.1 pos.2).2

/-- Modelled from the spec: qubit-mode `set_infon_state` — wraps, then stores
the new state. Every caller in src/core/dynamics.py pre-wraps the position,
so on those calls this agrees with the scalar source's in-bounds write. -/
def QManifold.set (m : QManifold) (pos : ℤ × ℤ) (q : Qubit) : QManifold :=
  { m with grid := fun i j =>
      if i = (m.wrap pos.1 pos.2).1 ∧ j = (m.wrap pos.1 pos.2).2 then q
      else m.grid i j }

/-! ## Emergent geometry (src/core/geometry.py) -/

/-- `bloch_vector` (src/core/geometry.py lines 11–25):
`(x, y, z) = (2·Re(ā·b), 2·Im(b̄·a), |a|² − |b|²)`. -/
noncomputable def bloch_vector (q : Qubit) : Fin 3 → ℝ :=
  ![2 * ((starRingEnd ℂ) q.a * q.b).re,
    2 * ((starRingEnd ℂ) q.b * q.a).im,
    Complex.abs q.a ^ 2 - Complex.abs q.b ^ 2]

/-- `np.clip x lo hi = min hi (max lo x)`. -/
noncomputable def npClip (x lo hi : ℝ) : ℝ := min hi (max lo x)

/-- Dot product of two 3-vectors (`np.dot` on Bloch vectors). -/
noncomputable def dot3 (u w : Fin 3 → ℝ) : ℝ :=
  u 0 * w 0 + u 1 * w 1 + u 2 * w 2

/-- Euclidean norm of a 3-vector (`numpy.linalg.norm`). -/
noncomputable def norm3 (u : Fin 3 → ℝ) : ℝ :=
  Real.sqrt (u 0 ^ 2 + u 1 ^ 2 + u 2 ^ 2)

/-- The qubit branch of `EmergentGeometry.compute_local_metric_analogue`
(src/core/geometry.py lines 46–67): the angle
`arccos (clip (v1·v2 / (‖v1‖·‖v2‖ + 1e-9)) (-1) 1)` between the two cells'
Bloch vectors. -/
noncomputable def compute_local_metric_analogue_qubit
    (m : QManifold) (p1 p2 : ℤ × ℤ) : ℝ :=
  let v1 := bloch_vector (m.get p1)
  let v2 := bloch_vector (m.get p2)
  Real.arccos (npClip (dot3 v1 v2 / (norm3 v1 * norm3 v2 + 1e-9)) (-1) 1)

/-- The scalar branch of `compute_local_metric_analogue`
(src/core/geometry.py lines 59–61): Euclidean distance of the grid
coordinates, `np.hypot (r1 − r2) (c1 − c2)`. -/
noncomputable def compute_local_metric_analogue_scalar (p1 p2 : ℤ × ℤ) : ℝ :=
  npHypot (((p1.1 : ℤ) : ℝ) - ((p2.1 : ℤ) : ℝ)) (((p1.2 : ℤ) : ℝ) - ((p2.2 : ℤ) : ℝ))

/-! ## Hamiltonian dynamics (src/core/dynamics.py, class `HamiltonianDynamics`) -/

/-- Pauli `X` (src/core/dynamics.py line 15). -/
def SIGMA_X : Matrix (Fin 2) (Fin 2) ℂ := !![0, 1; 1, 0]

/-- Pauli `Z` (src/core/dynamics.py line 16). -/
def SIGMA_Z : Matrix (Fin 2) (Fin 2) ℂ := !![1, 0; 0, -1]

/-- `np.identity(2)` (src/core/dynamics.py line 17). -/
def ID2 : Matrix (Fin 2) (Fin 2) ℂ := !![1, 0; 0, 1]

/-- High bit of a flat `np.kron` index: `i / 2`. -/
def fin4Hi (i : Fin 4) : Fin 2 := ⟨i.val / 2, by have := i.isLt; omega⟩

/-- Low bit of a flat `np.kron` index: `i % 2`. -/
def fin4Lo (i : Fin 4) : Fin 2 := ⟨i.val % 2, by have := i.isLt; omega⟩

/-- `np.kron` of two 2×2 matrices with flat indices:
`(A ⊗ B)[2i+i', 2j+j'] = A[i,j]·B[i',j']`. -/
def npKron (A B : Matrix (Fin 2) (Fin 2) ℂ) : Matrix (Fin 4) (Fin 4) ℂ :=
  Matrix.of fun i j => A (fin4Hi i) (fin4Hi j) * B (fin4Lo i) (fin4Lo j)

/-- `np.kron` of two 2-vectors: `(x ⊗ y)[2i+j] = x[i]·y[j]`. -/
def npKronVec (x y : Fin 2 → ℂ) : Fin 4 → ℂ :=
  fun i => x (fin4Hi i) * y (fin4Lo i)

/-- The immutable configuration of `HamiltonianDynamics.__init__`
(src/core/dynamics.py lines 71–88); the manifold is passed to each operation
since it is the mutable state. -/
structure HamiltonianDynamics where
  J_base : ℝ
  h : ℝ
  dt : ℝ
  use_geometric_coupling : Bool

/-- The effective coupling computed at the head of
`HamiltonianDynamics.get_local_hamiltonian` (src/core/dynamics.py lines
95–107): `J_base · (1 − dist/π)` under geometric coupling, where `dist` is
the informational distance between `pos` and its wrapped right neighbor;
plain `J_base` otherwise. -/
noncomputable def HamiltonianDynamics.J_eff (d : HamiltonianDynamics)
    (m : QManifold) (pos : ℤ × ℤ) : ℝ :=
  if d.use_geometric_coupling then
    let neighbor_pos := m.wrapZ pos.1 (pos.2 + 1)
    let dist := compute_local_metric_analogue_qubit m pos neighbor_pos
    d.J_base * (1 - dist / Real.pi)
  else d.J_base

/-- `HamiltonianDynamics.get_local_hamiltonian` (src/core/dynamics.py lines
90–113): `H = −J_eff·(Z⊗Z) − h·(X⊗I + I⊗X)` for the ordered pair (pos,
wrapped right neighbor). -/
noncomputable def HamiltonianDynamics.get_local_hamiltonian
    (d : HamiltonianDynamics) (m : QManifold) (pos : ℤ × ℤ) :
    Matrix (Fin 4) (Fin 4) ℂ :=
  ((-(d.J_eff m pos) : ℝ) : ℂ) • npKron SIGMA_Z SIGMA_Z +
    ((-d.h : ℝ) : ℂ) • (npKron SIGMA_X ID2 + npKron ID2 SIGMA_X)

/-- The 4×4 matrix `−J_eff·(Z⊗Z) − h·(X⊗I + I⊗X)` of spec §4.5, written out
entrywise (`Z⊗Z = diag(1,−1,−1,1)`, `X⊗I + I⊗X` the two transverse-field
terms). -/
noncomputable def specPairHamiltonian (Jeff hf : ℝ) : Matrix (Fin 4) (Fin 4) ℂ :=
  !![(-Jeff : ℂ), (-hf : ℂ), (-hf : ℂ), 0;
     (-hf : ℂ), (Jeff : ℂ), 0, (-hf : ℂ);
     (-hf : ℂ), 0, (Jeff : ℂ), (-hf : ℂ);
     0, (-hf : ℂ), (-hf : ℂ), (-Jeff : ℂ)]

/-- `scipy.linalg.expm`: the matrix exponential, via Mathlib's exponential
series. -/
noncomputable def expm (A : Matrix (Fin 4) (Fin 4) ℂ) : Matrix (Fin 4) (Fin 4) ℂ :=
  NormedSpace.exp ℂ A

/-- The `(U, S, Vh)` triple returned by `np.linalg.svd` on a 2×2 complex
matrix. -/
structure SVDResult where
  U : Matrix (Fin 2) (Fin 2) ℂ
  S : Fin 2 → ℝ
  Vh : Matrix (Fin 2) (Fin 2) ℂ

/-- The contract LAPACK guarantees for `U, S, Vh = np.linalg.svd(M)`: `U` and
`Vh` unitary, singular values descending and nonnegative, and
`M = U · diag S · Vh`. `np.linalg.svd` itself is an external routine; the
development quantifies over any function satisfying this contract. -/
def IsSVD2 (M : Matrix (Fin 2) (Fin 2) ℂ) (res : SVDResult) : Prop :=
  res.U ∈ Matrix.unitaryGroup (Fin 2) ℂ ∧
  res.Vh ∈ Matrix.unitaryGroup (Fin 2) ℂ ∧
  res.S 1 ≤ res.S 0 ∧ 0 ≤ res.S 1 ∧
  M = res.U * Matrix.diagonal (fun i => ((res.S i : ℝ) : ℂ)) * res.Vh

/-- `pair_state.reshape(2, 2)`: row-major reshape of a 4-vector. -/
def reshape22 (ψ : Fin 4 → ℂ) : Matrix (Fin 2) (Fin 2) ℂ :=
  Matrix.of fun i j =>
    ψ ⟨2 * i.val + j.val, by have := i.isLt; have := j.isLt; omega⟩

/-- `HamiltonianDynamics._unentangle_and_update` (src/core/dynamics.py lines
165–191): reshape, SVD, and return `(U[:,0]·√S₀, Vh[0,:]·√S₀)`. The
`LinAlgError` fallback branch never fires in the model because the svd
parameter is a total function. -/
noncomputable def unentangle_and_update
    (svdFn : Matrix (Fin 2) (Fin 2) ℂ → SVDResult) (pair_state : Fin 4 → ℂ) :
    (Fin 2 → ℂ) × (Fin 2 → ℂ) :=
  let res := svdFn (reshape22 pair_state)
  (fun i => res.U i 0 * ((Real.sqrt (res.S 0) : ℝ) : ℂ),
   fun j => res.Vh 0 j * ((Real.sqrt (res.S 0) : ℝ) : ℂ))

/-- `HamiltonianDynamics._evolve_pair` (src/core/dynamics.py lines 134–163):
wrap both positions, build the pair Hamiltonian at `pos1`, apply
`U = expm(−i·H·dt)` to the product state, re-project by SVD, and write back
two fresh `Qubit` instances through the normalizing constructor. -/
noncomputable def HamiltonianDynamics.evolve_pair (d : HamiltonianDynamics)
    (svdFn : Matrix (Fin 2) (Fin 2) ℂ → SVDResult) (m : QManifold)
    (pos1_raw pos2_raw : ℤ × ℤ) : QManifold :=
  let pos1 := m.wrapZ pos1_raw.1 pos1_raw.2
  let pos2 := m.wrapZ pos2_raw.1 pos2_raw.2
  let q1 := m.get pos1
  let q2 := m.get pos2
  let H_pair := d.get_local_hamiltonian m pos1
  let U_pair := expm ((-Complex.I * (d.dt : ℂ)) • H_pair)
  let pair_state := npKronVec q1.state q2.state
  let evolved := U_pair.mulVec pair_state
  let qs := unentangle_and_update svdFn evolved
  (m.set pos1 (mkQubit (qs.1 0) (qs.1 1))).set pos2 (mkQubit (qs.2 0) (qs.2 1))

/-- All cell coordinates in row-major order, as the two nested loops of
`HamiltonianDynamics.step` enumerate them. -/
def cellList (rows cols : ℕ) : List (ℤ × ℤ) :=
  (List.range rows).flatMap fun r => (List.range cols).map fun c => ((r : ℤ), (c : ℤ))

/-- `HamiltonianDynamics.step` (src/core/dynamics.py lines 115–132): the
first-order Trotter split — evolve every horizontal pair `(r,c)-(r,c+1)`
sequentially in row-major order, then every vertical pair `(r,c)-(r+1,c)`. -/
noncomputable def HamiltonianDynamics.step (d : HamiltonianDynamics)
    (svdFn : Matrix (Fin 2) (Fin 2) ℂ → SVDResult) (m : QManifold) : QManifold :=
  let m1 := (cellList m.rows m.cols).foldl
    (fun acc rc => d.evolve_pair svdFn acc rc (rc.1, rc.2 + 1)) m
  (cellList m.rows m.cols).foldl
    (fun acc rc => d.evolve_pair svdFn acc rc (rc.1 + 1, rc.2)) m1

/-! ## Energy tensor (src/core/t_tensor.py) -/

/-- `TTensor.compute_T00_local` (src/core/t_tensor.py lines 35–58):
`T00 = Re (conj(ψ)ᵀ · H_local · ψ)` for `ψ = q1.state ⊗ q2.state` with `q2`
the wrapped right neighbor and `H_local` the dynamics' pair Hamiltonian at
the position. -/
noncomputable def TTensor.compute_T00_local (d : HamiltonianDynamics)
    (m : QManifold) (position : ℤ × ℤ) : ℝ :=
  let pos2 := m.wrapZ position.1 (position.2 + 1)
  let q1 := m.get position
  let q2 := m.get pos2
  let pair_state := npKronVec q1.state q2.state
  let H_local := d.get_local_hamiltonian m position
  (Matrix.dotProduct (fun i => (starRingEnd ℂ) (pair_state i))
    (H_local.mulVec pair_state)).re

/-- `LocalEnergy(pos)` as the spec words it (§4.6): the real part of the
expectation value `⟨ψ|H_local|ψ⟩ = Σᵢⱼ conj(ψ i)·H i j·ψ j`, with `ψ` the
tensor product of the state at `pos` and its wrapped right neighbor and `H`
the pair Hamiltonian of the dynamics at `pos`. -/
noncomputable def specLocalEnergy (d : HamiltonianDynamics) (m : QManifold)
    (position : ℤ × ℤ) : ℝ :=
  let ψ := npKronVec (m.get position).state
    (m.get (m.wrapZ position.1 (position.2 + 1))).state
  (∑ i : Fin 4, ∑ j : Fin 4,
    (starRingEnd ℂ) (ψ i) * d.get_local_hamiltonian m position i j * ψ j).re

/-! ## Observables (src/core/metrics.py) -/

/-- `shannon_entropy` (src/core/metrics.py lines 5–30): the mean over all
cells of `−(p0·log2(p0+ε) + p1·log2(p1+ε))` with `p1 = 1 − p0` and
`ε = 1e-12`. -/
noncomputable def shannon_entropy (m : QManifold) : ℝ :=
  let eps : ℝ := 1e-12
  let total : ℝ := (∑ i : Fin m.rows, ∑ j : Fin m.cols,
    ((m.grid i j).p0 * Real.logb 2 ((m.grid i j).p0 + eps) +
      (1 - (m.grid i j).p0) * Real.logb 2 (1 - (m.grid i j).p0 + eps))) ;
  -total / ((m.rows : ℝ) * (m.cols : ℝ))

/-! ## Concrete fixtures used by witnesses and counterexamples -/

/-- A 2×2 zero-filled periodic scalar manifold. -/
def m2x2 : Manifold :=
  { rows := 2, cols := 2, infon_type := "scalar",
    boundary_conditions := .periodic, grid := [[0, 0], [0, 0]] }

/-- An 8×8 periodic grid seeded with the standard glider in its top-left 5×5
block. -/
def gliderGrid : List (List ℚ) :=
  [[0, 1, 0, 0, 0, 0, 0, 0],
   [0, 0, 1, 0, 0, 0, 0, 0],
   [1, 1, 1, 0, 0, 0, 0, 0],
   [0, 0, 0, 0, 0, 0, 0, 0],
   [0, 0, 0, 0, 0, 0, 0, 0],
   [0, 0, 0, 0, 0, 0, 0, 0],
   [0, 0, 0, 0, 0, 0, 0, 0],
   [0, 0, 0, 0, 0, 0, 0, 0]]

/-- `gliderGrid` with every live cell translated by `(1, 1)`. -/
def gliderGridShifted : List (List ℚ) :=
  [[0, 0, 0, 0, 0, 0, 0, 0],
   [0, 0, 1, 0, 0, 0, 0, 0],
   [0, 0, 0, 1, 0, 0, 0, 0],
   [0, 1, 1, 1, 0, 0, 0, 0],
   [0, 0, 0, 0, 0, 0, 0, 0],
   [0, 0, 0, 0, 0, 0, 0, 0],
   [0, 0, 0, 0, 0, 0, 0, 0],
   [0, 0, 0, 0, 0, 0, 0, 0]]

/-- The glider seed as a periodic scalar manifold. -/
def gliderManifold : Manifold :=
  { rows := 8, cols := 8, infon_type := "scalar",
    boundary_conditions := .periodic, grid := gliderGrid }

/-- The basis state `|0⟩`. -/
def qZero : Qubit := ⟨1, 0⟩

/-- A 1×1 qubit lattice whose only cell is `|0⟩`. -/
def qm1 : QManifold := ⟨1, 1, Nat.one_pos, Nat.one_pos, fun _ _ => qZero⟩

/-- The equal superposition `(1/√2)(|0⟩ + |1⟩)`. -/
noncomputable def superQubit : Qubit :=
  ⟨(((Real.sqrt 2)⁻¹ : ℝ) : ℂ), (((Real.sqrt 2)⁻¹ : ℝ) : ℂ)⟩

/-- A 1×1 qubit lattice whose only cell is the equal superposition. -/
noncomputable def qmSup : QManifold :=
  ⟨1, 1, Nat.one_pos, Nat.one_pos, fun _ _ => superQubit⟩

/-- A trivial stand-in for the svd parameter, used only to instantiate
witnesses (its value is constrained, or relevant, only where a theorem
hypothesizes `IsSVD2` at a specific input). -/
noncomputable def svdTriv : Matrix (Fin 2) (Fin 2) ℂ → SVDResult :=
  fun _ => ⟨1, ![1, 0], 1⟩

/-- A sample dynamics configuration (`J = 1`, `h = 1/2`, `dt = 1/10`,
geometric coupling on), for witnesses. -/
noncomputable def dyn0 : HamiltonianDynamics := ⟨1, 1/2, 1/10, true⟩

/-! ## Helper lemmas -/

@[simp] theorem fin4Hi_zero : fin4Hi 0 = 0 := rfl

@[simp] theorem fin4Hi_one : fin4Hi 1 = 0 := rfl

@[simp] theorem fin4Hi_two : fin4Hi 2 = 1 := rfl

@[simp] theorem fin4Hi_three : fin4Hi 3 = 1 := rfl

@[simp] theorem fin4Lo_zero : fin4Lo 0 = 0 := rfl

@[simp] theorem fin4Lo_one : fin4Lo 1 = 1 := rfl

@[simp] theorem fin4Lo_two : fin4Lo 2 = 0 := rfl

@[simp] theorem fin4Lo_three : fin4Lo 3 = 1 := rfl

theorem mkQubit_eq (a b : ℂ) :
    mkQubit a b =
      if npHypot (Complex.abs a) (Complex.abs b) < 1e-9 then ⟨1, 0⟩
      else ⟨a / ((npHypot (Complex.abs a) (Complex.abs b) : ℝ) : ℂ),
            b / ((npHypot (Complex.abs a) (Complex.abs b) : ℝ) : ℂ)⟩ := rfl

/-- The normalizing constructor always produces a unit-norm state: either the
snap-to-`|0⟩` branch, or the division by the (then nonzero) norm. -/
theorem mkQubit_normSq (a b : ℂ) : (mkQubit a b).normSq = 1 := by
  rw [mkQubit_eq]
  by_cases hlt : npHypot (Complex.abs a) (Complex.abs b) < 1e-9
  · rw [if_pos hlt]
    simp [Qubit.normSq]
  · rw [if_neg hlt]
    have hpos : (0 : ℝ) < npHypot (Complex.abs a) (Complex.abs b) :=
      lt_of_lt_of_le (by norm_num) (not_lt.mp hlt)
    have hsq : npHypot (Complex.abs a) (Complex.abs b) ^ 2 =
        Complex.abs a ^ 2 + Complex.abs b ^ 2 :=
      Real.sq_sqrt (by positivity)
    simp only [Qubit.normSq, map_div₀, Complex.abs_ofReal, abs_of_pos hpos,
      div_pow]
    rw [div_add_div_same, ← hsq, div_self (pow_ne_zero 2 (ne_of_gt hpos))]

/-! ## C1 — lattice construction -/

/-- C1 (code bug): `Manifold.__init__` rejects `'qubit'` mode with
`NotImplementedError` instead of filling the grid with sampled quantum
states, while scalar mode zero-fills as claimed. The qubit-mode constructions
performed by the repository's own drivers
(`src/gui/interactive_sim_mpl.py`, `src/scripts/parameter_sweep.py`)
therefore fail. -/
theorem manifold_build_qubit_raises :
    Manifold.build (8, 8) "qubit" .periodic = .error .notImplementedError ∧
    Manifold.build (2, 3) "scalar" .periodic =
      .ok { rows := 2, cols := 3, infon_type := "scalar",
            boundary_conditions := .periodic,
            grid := [[0, 0, 0], [0, 0, 0]] } := by
  exact ⟨by decide, by decide⟩

/-! ## C2 — constructor normalization -/

/-- C2: every constructed `Qubit` — both amplitudes, one amplitude, or no
amplitude supplied — satisfies `|a|² + |b|² = 1` exactly in the real-number
model (hence within `1e-9`); and when the supplied pair has norm below `1e-9`
the state snaps to exactly `(1, 0)`. -/
theorem qubit_constructor_normalized (a? b? : Option ℂ) (u v : ℝ) :
    (Qubit.build a? b? u v).normSq = 1 ∧
    (∀ a b : ℂ, a? = some a → b? = some b →
      npHypot (Complex.abs a) (Complex.abs b) < 1e-9 →
      Qubit.build a? b? u v = ⟨1, 0⟩) := by
  constructor
  · cases a? <;> cases b? <;> exact mkQubit_normSq _ _
  · rintro a b rfl rfl hsmall
    show mkQubit a b = ⟨1, 0⟩
    rw [mkQubit_eq, if_pos hsmall]

/-- Witness for C2 at the zero pair, which lies under the snap threshold. -/
theorem qubit_constructor_normalized_witness :
    (Qubit.build (some 0) (some 0) 0 0).normSq = 1 ∧
    Qubit.build (some 0) (some 0) 0 0 = ⟨1, 0⟩ :=
  ⟨(qubit_constructor_normalized (some 0) (some 0) 0 0).1,
   (qubit_constructor_normalized (some 0) (some 0) 0 0).2 0 0 rfl rfl (by
     unfold npHypot
     simp
     norm_num)⟩

/-! ## C9 — get wraps, set does not -/

/-- C9 counterexample: on the 2×2 periodic lattice, a `set` at the
out-of-range position `(2, 0)` is a no-op — the wrapped cell `(0, 0)` keeps
its old value `0` instead of receiving `5`. -/
theorem set_out_of_range_noop_counterexample :
    m2x2.set_infon_state (2, 0) 5 = m2x2 ∧
    (m2x2.set_infon_state (2, 0) 5).get_infon_state (0, 0) = .ok 0 ∧
    ¬(m2x2.set_infon_state (2, 0) 5).get_infon_state (0, 0) = .ok 5 := by
  refine ⟨by decide, by decide, by decide⟩

/-- C9 (amended): `get` wraps the position first under periodic boundaries,
but `set` never wraps — it writes the value only when the raw position is
inside the real bounds and is a warned no-op otherwise. -/
theorem get_wraps_set_writes_in_range (m : Manifold) (pos : ℤ × ℤ) (value : ℚ) :
    (m.boundary_conditions = .periodic →
      m.get_infon_state pos =
        .ok (gridAt m.grid (pos.1 % (m.rows : ℤ)).toNat
          (pos.2 % (m.cols : ℤ)).toNat)) ∧
    ((0 ≤ pos.1 ∧ pos.1 < (m.rows : ℤ) ∧ 0 ≤ pos.2 ∧ pos.2 < (m.cols : ℤ)) →
      (m.set_infon_state pos value).grid =
        setGrid m.grid pos.1.toNat pos.2.toNat value) ∧
    (¬(0 ≤ pos.1 ∧ pos.1 < (m.rows : ℤ) ∧ 0 ≤ pos.2 ∧ pos.2 < (m.cols : ℤ)) →
      m.set_infon_state pos value = m) := by
  refine ⟨fun hper => ?_, fun hin => ?_, fun hout => ?_⟩
  · simp only [Manifold.get_infon_state, Manifold.apply_boundary_conditions, hper]
  · simp only [Manifold.set_infon_state, if_pos hin]
  · simp only [Manifold.set_infon_state, if_neg hout]

/-- Witness for C9 on the 2×2 periodic lattice: a wrapped read at `(2, 0)`,
an in-range write at `(0, 1)`, and the out-of-range no-op at `(2, 0)`. -/
theorem get_wraps_set_writes_in_range_witness :
    (m2x2.get_infon_state (2, 0) =
      .ok (gridAt m2x2.grid ((2 : ℤ) % (m2x2.rows : ℤ)).toNat
        ((0 : ℤ) % (m2x2.cols : ℤ)).toNat)) ∧
    ((m2x2.set_infon_state (0, 1) 5).grid =
      setGrid m2x2.grid (0 : ℤ).toNat (1 : ℤ).toNat 5) ∧
    m2x2.set_infon_state (2, 0) 5 = m2x2 :=
  ⟨(get_wraps_set_writes_in_range m2x2 (2, 0) 5).1 rfl,
   (get_wraps_set_writes_in_range m2x2 (0, 1) 5).2.1 (by decide),
   (get_wraps_set_writes_in_range m2x2 (2, 0) 5).2.2 (by decide)⟩

/-! ## C6 — Conway rule and the glider test -/

set_option maxRecDepth 10000

unseal Rat.add in
/-- C6: with the default rules; the synchronous step (the new
grid is a pure function of the frozen pre-step grid) reproduces Conway's
rule: the 5×5 glider seed on the 8×8 periodic lattice is translated by
`(1, 1)` after 4 generations. -/
theorem game_of_life_glider_translates :
    GameOfLifeTRGI.default_rule_b = [3] ∧
    GameOfLifeTRGI.default_rule_s = [2, 3] ∧
    ((GameOfLifeTRGI.step GameOfLifeTRGI.default_rule_b
        GameOfLifeTRGI.default_rule_s)^[4] gliderManifold).grid =
      gliderGridShifted := by
  refine ⟨rfl, rfl, by decide⟩

/-! ## C3 — step preserves normalization -/

/-- `|0⟩` has unit norm. -/
theorem qZero_normSq : qZero.normSq = 1 := by
  unfold Qubit.normSq qZero
  simp

/-- Writing a unit-norm state into a lattice of unit-norm states keeps every
cell unit-norm. -/
theorem set_preserves_normSq {m : QManifold} {pos : ℤ × ℤ} {q : Qubit}
    (hm : ∀ i j, (m.grid i j).normSq = 1) (hq : q.normSq = 1) :
    ∀ i j, ((m.set pos q).grid i j).normSq = 1 := by
  intro i j
  show (if i = (m.wrap pos.1 pos.2).1 ∧ j = (m.wrap pos.1 pos.2).2 then q
    else m.grid i j).normSq = 1
  split
  · exact hq
  · exact hm i j

/-- `_evolve_pair` rewrites its two cells through the normalizing `Qubit`
constructor, so every cell stays unit-norm — whatever the matrix exponential
and the svd routine return. -/
theorem evolve_pair_preserves_normSq (d : HamiltonianDynamics)
    (svdFn : Matrix (Fin 2) (Fin 2) ℂ → SVDResult) {m : QManifold}
    (p1 p2 : ℤ × ℤ) (hm : ∀ i j, (m.grid i j).normSq = 1) :
    ∀ i j, ((d.evolve_pair svdFn m p1 p2).grid i j).normSq = 1 := by
  unfold HamiltonianDynamics.evolve_pair
  exact set_preserves_normSq
    (set_preserves_normSq hm (mkQubit_normSq _ _)) (mkQubit_normSq _ _)

/-- A fold of cell-norm-preserving updates preserves cell norms. -/
theorem foldl_preserves_normSq {α : Type} (f : QManifold → α → QManifold)
    (hf : ∀ acc x, (∀ i j, ((acc.grid i j).normSq = 1)) →
      ∀ i j, (((f acc x).grid i j).normSq = 1)) :
    ∀ (l : List α) (m : QManifold), (∀ i j, ((m.grid i j).normSq = 1)) →
      ∀ i j, (((l.foldl f m).grid i j).normSq = 1)
  | [], _, hm => hm
  | x :: xs, m, hm => foldl_preserves_normSq f hf xs (f m x) (hf m x hm)

/-- One `step` (both Trotter sweeps) preserves cell norms. -/
theorem step_preserves_normSq (d : HamiltonianDynamics)
    (svdFn : Matrix (Fin 2) (Fin 2) ℂ → SVDResult) {m : QManifold}
    (hm : ∀ i j, (m.grid i j).normSq = 1) :
    ∀ i j, ((d.step svdFn m).grid i j).normSq = 1 := by
  unfold HamiltonianDynamics.step
  exact foldl_preserves_normSq _
    (fun acc x hacc => evolve_pair_preserves_normSq d svdFn _ _ hacc) _ _
    (foldl_preserves_normSq _
      (fun acc x hacc => evolve_pair_preserves_normSq d svdFn _ _ hacc) _ _ hm)

/-- `evolve_pair` keeps the row count. -/
theorem evolve_pair_rows (d : HamiltonianDynamics)
    (svdFn : Matrix (Fin 2) (Fin 2) ℂ → SVDResult) (m : QManifold)
    (p1 p2 : ℤ × ℤ) : (d.evolve_pair svdFn m p1 p2).rows = m.rows := rfl

/-- `evolve_pair` keeps the column count. -/
theorem evolve_pair_cols (d : HamiltonianDynamics)
    (svdFn : Matrix (Fin 2) (Fin 2) ℂ → SVDResult) (m : QManifold)
    (p1 p2 : ℤ × ℤ) : (d.evolve_pair svdFn m p1 p2).cols = m.cols := rfl

/-- Dimension stability through a fold of dimension-stable updates. -/
theorem foldl_rows_cols {α : Type} (f : QManifold → α → QManifold)
    (hf : ∀ acc x, (f acc x).rows = acc.rows ∧ (f acc x).cols = acc.cols) :
    ∀ (l : List α) (m : QManifold),
      (l.foldl f m).rows = m.rows ∧ (l.foldl f m).cols = m.cols
  | [], _ => ⟨rfl, rfl⟩
  | x :: xs, m => by
      have h1 := foldl_rows_cols f hf xs (f m x)
      have h2 := hf m x
      exact ⟨h1.1.trans h2.1, h1.2.trans h2.2⟩

/-- `step` keeps the lattice dimensions. -/
theorem step_rows_cols (d : HamiltonianDynamics)
    (svdFn : Matrix (Fin 2) (Fin 2) ℂ → SVDResult) (m : QManifold) :
    (d.step svdFn m).rows = m.rows ∧ (d.step svdFn m).cols = m.cols := by
  unfold HamiltonianDynamics.step
  have h1 := foldl_rows_cols
    (fun acc rc => d.evolve_pair svdFn acc rc (rc.1, rc.2 + 1))
    (fun acc x => ⟨rfl, rfl⟩) (cellList m.rows m.cols) m
  have h2 := foldl_rows_cols
    (fun acc rc => d.evolve_pair svdFn acc rc (rc.1 + 1, rc.2))
    (fun acc x => ⟨rfl, rfl⟩) (cellList m.rows m.cols)
    ((cellList m.rows m.cols).foldl
      (fun acc rc => d.evolve_pair svdFn acc rc (rc.1, rc.2 + 1)) m)
  exact ⟨h2.1.trans h1.1, h2.2.trans h1.2⟩

/-- Iterated `step` keeps the lattice dimensions. -/
theorem iterate_step_rows_cols (d : HamiltonianDynamics)
    (svdFn : Matrix (Fin 2) (Fin 2) ℂ → SVDResult) :
    ∀ (n : ℕ) (m : QManifold),
      ((d.step svdFn)^[n] m).rows = m.rows ∧
      ((d.step svdFn)^[n] m).cols = m.cols
  | 0, _ => ⟨rfl, rfl⟩
  | Nat.succ k, m => by
      rw [Function.iterate_succ_apply]
      have h1 := iterate_step_rows_cols d svdFn k (d.step svdFn m)
      have h2 := step_rows_cols d svdFn m
      exact ⟨h1.1.trans h2.1, h1.2.trans h2.2⟩

/-- C3: on any qubit lattice whose cells are normalized — as every
constructor-built lattice is — any number of `HamiltonianDynamics.step`
calls leaves every cell with `|a|² + |b|² = 1` exactly (in the real-number
model; hence within numerical tolerance), for any svd routine: each evolved
pair is written back through the renormalizing `Qubit` constructor. -/
theorem hamiltonian_step_preserves_normalization (d : HamiltonianDynamics)
    (svdFn : Matrix (Fin 2) (Fin 2) ℂ → SVDResult) (m : QManifold)
    (hm : ∀ i j, (m.grid i j).normSq = 1) (n : ℕ) :
    ∀ i j, ((((d.step svdFn)^[n]) m).grid i j).normSq = 1 := by
  induction n generalizing m with
  | zero => exact hm
  | succ k ih =>
      rw [Function.iterate_succ_apply]
      exact ih _ (step_preserves_normSq d svdFn hm)

/-- Witness for C3: one step on the 1×1 all-`|0⟩` lattice. -/
theorem hamiltonian_step_preserves_normalization_witness :
    ((((dyn0.step svdTriv)^[1]) qm1).grid
      ⟨0, by rw [(iterate_step_rows_cols dyn0 svdTriv 1 qm1).1]; exact qm1.rows_pos⟩
      ⟨0, by rw [(iterate_step_rows_cols dyn0 svdTriv 1 qm1).2]; exact qm1.cols_pos⟩).normSq
      = 1 :=
  hamiltonian_step_preserves_normalization dyn0 svdTriv qm1
    (fun _ _ => qZero_normSq) 1 _ _

/-! ## C7 — informational distance -/

/-- The Bloch vector of `|0⟩` is `(0, 0, 1)`. -/
theorem bloch_vector_qZero : bloch_vector qZero = ![0, 0, 1] := by
  funext i
  fin_cases i <;> simp [bloch_vector, qZero]

/-- C7 counterexample: on a qubit lattice the self-distance is *not* zero —
for the all-`|0⟩` lattice, `d(p, p) = arccos (1 / (1 + 1e-9)) > 0`, because
the `1e-9` guard in the denominator pushes the cosine strictly below 1. -/
theorem metric_qubit_self_distance_ne_zero :
    compute_local_metric_analogue_qubit qm1 (0, 0) (0, 0) ≠ 0 := by
  have hb : bloch_vector (qm1.get (0, 0)) = ![0, 0, 1] := bloch_vector_qZero
  have harg : compute_local_metric_analogue_qubit qm1 (0, 0) (0, 0) =
      Real.arccos (npClip (dot3 ![0, 0, 1] ![0, 0, 1] /
        (norm3 ![0, 0, 1] * norm3 ![0, 0, 1] + 1e-9)) (-1) 1) := by
    simp only [compute_local_metric_analogue_qubit, hb]
  have hdot : dot3 ![(0 : ℝ), 0, 1] ![0, 0, 1] = 1 := by
    simp [dot3]
  have hnrm : norm3 ![(0 : ℝ), 0, 1] = 1 := by
    simp [norm3]
  rw [harg, hdot, hnrm]
  have hx : npClip (1 / (1 * 1 + 1e-9)) (-1) 1 = 1 / (1 * 1 + 1e-9) := by
    unfold npClip
    rw [max_eq_right (by norm_num), min_eq_right (by norm_num)]
  rw [hx]
  intro h0
  have := Real.arccos_eq_zero.mp h0
  norm_num at this

/-- C7 (amended): the informational distance is symmetric in both modes and
lies in `[0, π]` in qubit mode; the self-distance is zero in scalar mode,
while in qubit mode the `1e-9` guard makes `d(p, p)` strictly positive (see
the counterexample). -/
theorem informational_distance_properties (m : QManifold) (p1 p2 p : ℤ × ℤ) :
    compute_local_metric_analogue_qubit m p1 p2 =
      compute_local_metric_analogue_qubit m p2 p1 ∧
    0 ≤ compute_local_metric_analogue_qubit m p1 p2 ∧
    compute_local_metric_analogue_qubit m p1 p2 ≤ Real.pi ∧
    compute_local_metric_analogue_scalar p1 p2 =
      compute_local_metric_analogue_scalar p2 p1 ∧
    compute_local_metric_analogue_scalar p p = 0 := by
  refine ⟨?_, Real.arccos_nonneg _, Real.arccos_le_pi _, ?_, ?_⟩
  · simp only [compute_local_metric_analogue_qubit]
    have hdot : ∀ u w : Fin 3 → ℝ, dot3 u w = dot3 w u := by
      intro u w; unfold dot3; ring
    rw [hdot, mul_comm (norm3 (bloch_vector (m.get p1)))]
  · simp only [compute_local_metric_analogue_scalar, npHypot]
    congr 1
    ring
  · simp only [compute_local_metric_analogue_scalar, npHypot]
    simp

/-! ## C10 — Shannon entropy extremes -/

/-- The equal superposition has `p0 = 1/2`. -/
theorem superQubit_p0 : superQubit.p0 = 1 / 2 := by
  unfold Qubit.p0 superQubit
  rw [Complex.abs_ofReal, abs_of_nonneg (by positivity), inv_pow,
    Real.sq_sqrt (by norm_num : (0 : ℝ) ≤ 2)]
  norm_num

/-- `log₂(1 + x) ≤ 1.5·x` for `x ≥ 0` (since `log(1+x) ≤ x` and
`log 2 > 2/3`). -/
theorem logb_two_one_add_le {x : ℝ} (hx : 0 ≤ x) :
    Real.logb 2 (1 + x) ≤ 1.5 * x := by
  have h1 : Real.log (1 + x) ≤ x := by
    have := Real.log_le_sub_one_of_pos (show (0 : ℝ) < 1 + x by linarith)
    linarith
  have h2 : (0.6931471803 : ℝ) < Real.log 2 := Real.log_two_gt_d9
  rw [Real.logb, div_le_iff₀ (by linarith)]
  nlinarith [mul_nonneg hx (by linarith : (0 : ℝ) ≤ 1.5 * Real.log 2 - 1)]

/-- When every cell contributes the same per-cell term `c`, the Shannon
entropy of the lattice is `-c`. -/
theorem shannon_entropy_const (m : QManifold) (c : ℝ)
    (hcell : ∀ i j, ((m.grid i j).p0 * Real.logb 2 ((m.grid i j).p0 + 1e-12) +
      (1 - (m.grid i j).p0) * Real.logb 2 (1 - (m.grid i j).p0 + 1e-12)) = c) :
    shannon_entropy m = -c := by
  have hr : ((m.rows : ℝ)) ≠ 0 := Nat.cast_ne_zero.mpr m.rows_pos.ne'
  have hc : ((m.cols : ℝ)) ≠ 0 := Nat.cast_ne_zero.mpr m.cols_pos.ne'
  simp only [shannon_entropy]
  rw [Finset.sum_congr rfl fun i _ => Finset.sum_congr rfl fun j _ => hcell i j]
  simp only [Finset.sum_const, Finset.card_univ, Fintype.card_fin, nsmul_eq_mul]
  field_simp
  ring

/-- C10 counterexample: on the 1×1 equal-superposition lattice the Shannon
entropy is `−log₂(1/2 + 1e-12)`, which is strictly below `1.0` — the `ε`
inside the logarithm keeps the code from returning exactly one bit per
cell. -/
theorem shannon_entropy_superposition_ne_one :
    superQubit.p0 = 1 / 2 ∧ shannon_entropy qmSup ≠ 1 := by
  refine ⟨superQubit_p0, ?_⟩
  have hval : shannon_entropy qmSup = -(Real.logb 2 (1 / 2 + 1e-12)) := by
    apply shannon_entropy_const
    intro i j
    show superQubit.p0 * Real.logb 2 (superQubit.p0 + 1e-12) +
      (1 - superQubit.p0) * Real.logb 2 (1 - superQubit.p0 + 1e-12) = _
    rw [superQubit_p0]
    rw [show (1 - 1 / 2 : ℝ) = 1 / 2 by norm_num]
    ring
  rw [hval]
  intro h
  have hhalf : Real.logb 2 (1 / 2 : ℝ) = -1 := by
    rw [show (1 / 2 : ℝ) = 2⁻¹ by norm_num, Real.logb_inv,
      Real.logb_self_eq_one (by norm_num)]
  have hlt : Real.logb 2 (1 / 2 : ℝ) < Real.logb 2 (1 / 2 + 1e-12) :=
    Real.logb_lt_logb (by norm_num) (by norm_num) (by norm_num)
  rw [hhalf] at hlt
  linarith

/-- C10 (amended): the all-`|0⟩` lattice has Shannon entropy within `2e-12`
of `0`, and the equal-superposition lattice has Shannon entropy within
`3e-12` of `1.0` bits per cell (the exact values are `−log₂(1+ε)` and
`1 − log₂(1+2ε)` respectively, with `ε = 1e-12`). -/
theorem shannon_entropy_extremes (m : QManifold) :
    ((∀ i j, m.grid i j = qZero) → |shannon_entropy m| ≤ 2e-12) ∧
    ((∀ i j, (m.grid i j).p0 = 1 / 2) → |shannon_entropy m - 1| ≤ 3e-12) := by
  constructor
  · intro h
    have hval : shannon_entropy m = -(Real.logb 2 (1 + 1e-12)) := by
      apply shannon_entropy_const
      intro i j
      rw [h i j]
      have h1 : qZero.p0 = 1 := by
        unfold Qubit.p0 qZero
        simp
      rw [h1]
      rw [show (1 - 1 : ℝ) = 0 by norm_num]
      ring
    rw [hval, abs_neg, abs_of_nonneg
      (Real.logb_nonneg (by norm_num) (by norm_num))]
    have := logb_two_one_add_le (show (0 : ℝ) ≤ 1e-12 by norm_num)
    linarith
  · intro h
    have hval : shannon_entropy m = -(Real.logb 2 (1 / 2 + 1e-12)) := by
      apply shannon_entropy_const
      intro i j
      rw [h i j]
      rw [show (1 - 1 / 2 : ℝ) = 1 / 2 by norm_num]
      ring
    have hsplit : Real.logb 2 (1 / 2 + 1e-12) = Real.logb 2 (1 + 2e-12) - 1 := by
      rw [show (1 / 2 + 1e-12 : ℝ) = (1 + 2e-12) / 2 by norm_num,
        Real.logb_div (by norm_num) (by norm_num),
        Real.logb_self_eq_one (by norm_num)]
    rw [hval, hsplit]
    have hub := logb_two_one_add_le (show (0 : ℝ) ≤ 2e-12 by norm_num)
    have hlb : 0 ≤ Real.logb 2 (1 + 2e-12) :=
      Real.logb_nonneg (by norm_num) (by norm_num)
    rw [show -(Real.logb 2 (1 + 2e-12) - 1) - 1 = -(Real.logb 2 (1 + 2e-12))
      by ring, abs_neg, abs_of_nonneg hlb]
    linarith

/-- Witness for C10: the two 1×1 lattices. -/
theorem shannon_entropy_extremes_witness :
    |shannon_entropy qm1| ≤ 2e-12 ∧ |shannon_entropy qmSup - 1| ≤ 3e-12 :=
  ⟨(shannon_entropy_extremes qm1).1 (fun _ _ => rfl),
   (shannon_entropy_extremes qmSup).2 (fun _ _ => superQubit_p0)⟩

/-! ## C4 — the local pair Hamiltonian -/

/-- C4: `get_local_hamiltonian` returns exactly the 4×4 matrix
`−J_eff·(Z⊗Z) − h·(X⊗I + I⊗X)` (written out entrywise in
`specPairHamiltonian`), where `J_eff = J_base` when geometric coupling is
disabled and `J_base·(1 − dist/π)` when enabled, with `dist` the
informational distance between `pos` and its wrapped right neighbor. -/
theorem get_local_hamiltonian_formula (d : HamiltonianDynamics)
    (m : QManifold) (pos : ℤ × ℤ) :
    d.get_local_hamiltonian m pos = specPairHamiltonian (d.J_eff m pos) d.h ∧
    (d.use_geometric_coupling = true →
      d.J_eff m pos = d.J_base * (1 - compute_local_metric_analogue_qubit m pos
        (m.wrapZ pos.1 (pos.2 + 1)) / Real.pi)) ∧
    (d.use_geometric_coupling = false → d.J_eff m pos = d.J_base) := by
  refine ⟨?_, fun hg => ?_, fun hg => ?_⟩
  · funext i j
    fin_cases i <;> fin_cases j <;>
      simp [HamiltonianDynamics.get_local_hamiltonian, specPairHamiltonian,
        npKron, SIGMA_X, SIGMA_Z, ID2]
  · simp [HamiltonianDynamics.J_eff, hg]
  · simp [HamiltonianDynamics.J_eff, hg]

/-- Witness for C4 at a concrete configuration and lattice, discharging the
(trivial) boolean hypotheses of both coupling branches. -/
theorem get_local_hamiltonian_formula_witness :
    dyn0.get_local_hamiltonian qm1 (0, 0) =
      specPairHamiltonian (dyn0.J_eff qm1 (0, 0)) dyn0.h ∧
    dyn0.J_eff qm1 (0, 0) = dyn0.J_base *
      (1 - compute_local_metric_analogue_qubit qm1 (0, 0)
        (qm1.wrapZ 0 (0 + 1)) / Real.pi) :=
  ⟨(get_local_hamiltonian_formula dyn0 qm1 (0, 0)).1,
   (get_local_hamiltonian_formula dyn0 qm1 (0, 0)).2.1 rfl⟩

/-! ## C8 — local energy density -/

/-- C8: `TTensor.compute_T00_local` equals the spec's
`Re ⟨ψ|H_local|ψ⟩ = Re (Σᵢⱼ conj(ψ i)·H i j·ψ j)` with `ψ` the product state
of the cell and its wrapped right neighbor and `H_local` the dynamics' pair
Hamiltonian at the position — the two computations agree exactly. -/
theorem t00_equals_expectation (d : HamiltonianDynamics) (m : QManifold)
    (position : ℤ × ℤ) :
    TTensor.compute_T00_local d m position = specLocalEnergy d m position := by
  simp only [TTensor.compute_T00_local, specLocalEnergy]
  congr 1
  rw [Matrix.dotProduct]
  refine Finset.sum_congr rfl fun i _ => ?_
  rw [Matrix.mulVec, Matrix.dotProduct, Finset.mul_sum]
  refine Finset.sum_congr rfl fun j _ => ?_
  ring

/-! ## C5 — SVD reprojection round-trip -/

/-- `conj z · z = |z|²` as a complex scalar. -/
theorem star_mul_self_eq_normSq (z : ℂ) :
    star z * z = ((Complex.normSq z : ℝ) : ℂ) := by
  rw [Complex.star_def, mul_comm, Complex.mul_conj]

/-- Row-major reshape of a Kronecker product of 2-vectors is the outer
product matrix. -/
theorem reshape22_npKronVec (x y : Fin 2 → ℂ) :
    reshape22 (npKronVec x y) = Matrix.of fun i j => x i * y j := by
  funext i j
  fin_cases i <;> fin_cases j <;> rfl

/-- Column `k` of a 2×2 unitary has unit norm. -/
theorem unitary_col_normSq {U : Matrix (Fin 2) (Fin 2) ℂ}
    (hU : U ∈ Matrix.unitaryGroup (Fin 2) ℂ) (k : Fin 2) :
    Complex.normSq (U 0 k) + Complex.normSq (U 1 k) = 1 := by
  have hUU : star U * U = 1 := Matrix.mem_unitaryGroup_iff'.mp hU
  have h := congrArg (fun M => M k k) hUU
  simp only [Matrix.mul_apply, Fin.sum_univ_two, Matrix.star_eq_conjTranspose,
    Matrix.conjTranspose_apply, Matrix.one_apply_eq] at h
  have h' : star (U 0 k) * U 0 k + star (U 1 k) * U 1 k = 1 := h
  rw [star_mul_self_eq_normSq, star_mul_self_eq_normSq] at h'
  exact_mod_cast h'

/-- Row `k` of a 2×2 unitary has unit norm. -/
theorem unitary_row_normSq {V : Matrix (Fin 2) (Fin 2) ℂ}
    (hV : V ∈ Matrix.unitaryGroup (Fin 2) ℂ) (k : Fin 2) :
    Complex.normSq (V k 0) + Complex.normSq (V k 1) = 1 := by
  have hVV : V * star V = 1 := Matrix.mem_unitaryGroup_iff.mp hV
  have h := congrArg (fun M => M k k) hVV
  simp only [Matrix.mul_apply, Fin.sum_univ_two, Matrix.star_eq_conjTranspose,
    Matrix.conjTranspose_apply, Matrix.one_apply_eq] at h
  have h' : V k 0 * star (V k 0) + V k 1 * star (V k 1) = 1 := h
  rw [mul_comm (V k 0), mul_comm (V k 1), star_mul_self_eq_normSq,
    star_mul_self_eq_normSq] at h'
  exact_mod_cast h'

/-- The determinant of a member of the unitary group is nonzero. -/
theorem unitary_det_ne_zero {U : Matrix (Fin 2) (Fin 2) ℂ}
    (hU : U ∈ Matrix.unitaryGroup (Fin 2) ℂ) : U.det ≠ 0 := by
  have hd := Matrix.det_of_mem_unitary hU
  obtain ⟨hd1, _⟩ := unitary.mem_iff.mp hd
  intro h0
  rw [h0, mul_zero] at hd1
  exact zero_ne_one hd1

/-- The singular values of a valid SVD of a rank-one outer product of unit
2-vectors are exactly `(1, 0)`: the determinant forces `S₀·S₁ = 0` and the
Frobenius norm forces `S₀² + S₁² = 1`. -/
theorem svd_rank_one_singular_values {x y : Fin 2 → ℂ}
    (hx : Complex.normSq (x 0) + Complex.normSq (x 1) = 1)
    (hy : Complex.normSq (y 0) + Complex.normSq (y 1) = 1)
    {res : SVDResult}
    (hsvd : IsSVD2 (Matrix.of fun i j => x i * y j) res) :
    res.S 0 = 1 ∧ res.S 1 = 0 := by
  obtain ⟨hU, hV, hS10, hS1nn, hM⟩ := hsvd
  -- determinant: S₀ · S₁ = 0
  have hdetM : (Matrix.of fun i j => x i * y j).det = 0 := by
    rw [Matrix.det_fin_two]
    simp only [Matrix.of_apply]
    ring
  rw [hM, Matrix.det_mul, Matrix.det_mul, Matrix.det_diagonal,
    Fin.prod_univ_two] at hdetM
  have hprodC : ((res.S 0 : ℂ)) * ((res.S 1 : ℂ)) = 0 := by
    rcases mul_eq_zero.mp hdetM with h | h
    · rcases mul_eq_zero.mp h with h' | h'
      · exact absurd h' (unitary_det_ne_zero hU)
      · exact h'
    · exact absurd h (unitary_det_ne_zero hV)
  have hprod : res.S 0 * res.S 1 = 0 := by exact_mod_cast hprodC
  -- Frobenius: S₀² + S₁² = 1, via the trace of Mᴴ·M
  have hA : Matrix.trace ((Matrix.of fun i j => x i * y j)ᴴ *
      (Matrix.of fun i j => x i * y j)) = ((1 : ℝ) : ℂ) := by
    simp only [Matrix.trace, Matrix.diag, Matrix.mul_apply,
      Matrix.conjTranspose_apply, Matrix.of_apply, Fin.sum_univ_two]
    have key : ∀ z w : ℂ, star (z * w) * (z * w) =
        ((Complex.normSq z * Complex.normSq w : ℝ) : ℂ) := by
      intro z w
      rw [star_mul_self_eq_normSq (z * w), map_mul]
    rw [key, key, key, key]
    have hxy : (Complex.normSq (x 0) + Complex.normSq (x 1)) *
        (Complex.normSq (y 0) + Complex.normSq (y 1)) = 1 := by
      rw [hx, hy, one_mul]
    have hxyC : (((Complex.normSq (x 0) : ℝ) : ℂ) + ((Complex.normSq (x 1) : ℝ) : ℂ)) *
        (((Complex.normSq (y 0) : ℝ) : ℂ) + ((Complex.normSq (y 1) : ℝ) : ℂ)) = 1 := by
      exact_mod_cast hxy
    push_cast
    linear_combination hxyC
  have hB : Matrix.trace ((Matrix.of fun i j => x i * y j)ᴴ *
      (Matrix.of fun i j => x i * y j)) =
      ((res.S 0 ^ 2 + res.S 1 ^ 2 : ℝ) : ℂ) := by
    have hUu : (res.U)ᴴ * res.U = 1 := by
      rw [← Matrix.star_eq_conjTranspose]
      exact Matrix.mem_unitaryGroup_iff'.mp hU
    have hVv : res.Vh * (res.Vh)ᴴ = 1 := by
      rw [← Matrix.star_eq_conjTranspose]
      exact Matrix.mem_unitaryGroup_iff.mp hV
    set D := Matrix.diagonal (fun i => ((res.S i : ℝ) : ℂ)) with hD
    have hstep1 : (Matrix.of fun i j => x i * y j)ᴴ *
        (Matrix.of fun i j => x i * y j) =
        (res.Vh)ᴴ * (Dᴴ * (D * res.Vh)) := by
      rw [hM]
      simp only [Matrix.conjTranspose_mul, Matrix.mul_assoc]
      congr 2
      rw [← Matrix.mul_assoc (res.U)ᴴ, hUu, Matrix.one_mul]
    rw [hstep1, Matrix.trace_mul_comm]
    have hstep2 : Dᴴ * (D * res.Vh) * (res.Vh)ᴴ = Dᴴ * D := by
      rw [Matrix.mul_assoc (Dᴴ) (D * res.Vh), Matrix.mul_assoc D, hVv,
        Matrix.mul_one]
    rw [hstep2, hD, Matrix.diagonal_conjTranspose, Matrix.diagonal_mul_diagonal,
      Matrix.trace_diagonal, Fin.sum_univ_two]
    simp only [Pi.star_apply, Complex.star_def, Complex.conj_ofReal]
    push_cast
    ring
  have hsum : res.S 0 ^ 2 + res.S 1 ^ 2 = 1 := by
    have := hA.symm.trans hB
    exact_mod_cast this.symm
  -- combine
  have hS0nn : 0 ≤ res.S 0 := le_trans hS1nn hS10
  rcases mul_eq_zero.mp hprod with h0 | h1
  · exfalso
    nlinarith
  · refine ⟨?_, h1⟩
    rw [h1] at hsum
    nlinarith

/-- Two factorizations of a rank-one matrix by unit vectors differ by a
global phase: if `x i · y j = u i · w j` for unit vectors, then `u = c·x`
and `w = conj c · y` with `|c| = 1`. -/
theorem unit_rank_one_factor {x y u w : Fin 2 → ℂ}
    (hx : Complex.normSq (x 0) + Complex.normSq (x 1) = 1)
    (hy : Complex.normSq (y 0) + Complex.normSq (y 1) = 1)
    (hu : Complex.normSq (u 0) + Complex.normSq (u 1) = 1)
    (hprod : ∀ i j, x i * y j = u i * w j) :
    ∃ c : ℂ, Complex.abs c = 1 ∧ (∀ i, u i = c * x i) ∧
      (∀ j, w j = (starRingEnd ℂ) c * y j) := by
  have hxne : ∃ i, x i ≠ 0 := by
    by_contra hcon
    push_neg at hcon
    rw [hcon 0, hcon 1] at hx
    simp at hx
  obtain ⟨i0, hx0⟩ := hxne
  have hyne : ∃ j, y j ≠ 0 := by
    by_contra hcon
    push_neg at hcon
    rw [hcon 0, hcon 1] at hy
    simp at hy
  obtain ⟨j0, hy0⟩ := hyne
  have hu0 : u i0 ≠ 0 := by
    intro h0
    have hp := hprod i0 j0
    rw [h0, zero_mul] at hp
    exact mul_ne_zero hx0 hy0 hp
  have hwj : ∀ j, w j = x i0 / u i0 * y j := by
    intro j
    have hp := hprod i0 j
    rw [div_mul_eq_mul_div, eq_div_iff hu0]
    linear_combination -hp
  have huj : ∀ i, u i = u i0 / x i0 * x i := by
    intro i
    have hp := hprod i j0
    rw [hwj j0] at hp
    have hp2 : x i * u i0 * y j0 = u i * x i0 * y j0 := by
      field_simp at hp
      linear_combination hp
    have hp3 : x i * u i0 = u i * x i0 := mul_right_cancel₀ hy0 hp2
    rw [div_mul_eq_mul_div, eq_comm, div_eq_iff hx0]
    linear_combination hp3
  set c : ℂ := u i0 / x i0 with hc
  have habs2 : Complex.normSq c = 1 := by
    have h1 : Complex.normSq (u 0) + Complex.normSq (u 1) =
        Complex.normSq c * (Complex.normSq (x 0) + Complex.normSq (x 1)) := by
      rw [huj 0, huj 1, map_mul, map_mul]
      ring
    rw [hx, mul_one, hu] at h1
    exact h1.symm
  have habs : Complex.abs c = 1 := by
    rw [Complex.abs_apply, habs2, Real.sqrt_one]
  have hcne : c ≠ 0 := by
    intro h0
    rw [h0, map_zero] at habs2
    exact zero_ne_one habs2
  have hconj : (starRingEnd ℂ) c = c⁻¹ := by
    have hmc : c * (starRingEnd ℂ) c = 1 := by
      rw [Complex.mul_conj, habs2, Complex.ofReal_one]
    exact eq_inv_of_mul_eq_one_right hmc
  refine ⟨c, habs, huj, fun j => ?_⟩
  rw [hwj j, hconj, hc, inv_div]

/-- With singular values `(1, 0)`, the SVD factorization reduces entrywise to
the outer product of `U`'s first column and `Vh`'s first row. -/
theorem svd_rank_one_entries {x y : Fin 2 → ℂ} {res : SVDResult}
    (hM : (Matrix.of fun i j => x i * y j) =
      res.U * Matrix.diagonal (fun i => ((res.S i : ℝ) : ℂ)) * res.Vh)
    (hS0 : res.S 0 = 1) (hS1 : res.S 1 = 0) :
    ∀ i j, x i * y j = res.U i 0 * res.Vh 0 j := by
  intro i j
  have h := congrArg (fun M => M i j) hM
  simp [Matrix.mul_apply, Matrix.diagonal, Fin.sum_univ_two, hS0, hS1] at h
  linear_combination h

/-- C5: for any two normalized single-qubit states and any svd routine that
returns a valid SVD at the product state `q1 ⊗ q2`, the reprojection
`_unentangle_and_update` returns the original two states, each up to a
global phase factor of modulus one. -/
theorem svd_reprojection_roundtrip (q1 q2 : Qubit)
    (svdFn : Matrix (Fin 2) (Fin 2) ℂ → SVDResult)
    (h1 : q1.normSq = 1) (h2 : q2.normSq = 1)
    (hsvd : IsSVD2 (reshape22 (npKronVec q1.state q2.state))
      (svdFn (reshape22 (npKronVec q1.state q2.state)))) :
    ∃ c1 c2 : ℂ, Complex.abs c1 = 1 ∧ Complex.abs c2 = 1 ∧
      ((unentangle_and_update svdFn (npKronVec q1.state q2.state)).1 =
        fun i => c1 * q1.state i) ∧
      ((unentangle_and_update svdFn (npKronVec q1.state q2.state)).2 =
        fun j => c2 * q2.state j) := by
  have hx : Complex.normSq (q1.state 0) + Complex.normSq (q1.state 1) = 1 := by
    simp only [Qubit.state, Matrix.cons_val_zero, Matrix.cons_val_one,
      Matrix.head_cons]
    rw [← Complex.sq_abs, ← Complex.sq_abs]
    exact h1
  have hy : Complex.normSq (q2.state 0) + Complex.normSq (q2.state 1) = 1 := by
    simp only [Qubit.state, Matrix.cons_val_zero, Matrix.cons_val_one,
      Matrix.head_cons]
    rw [← Complex.sq_abs, ← Complex.sq_abs]
    exact h2
  have hsvd' : IsSVD2 (Matrix.of fun i j => q1.state i * q2.state j)
      (svdFn (reshape22 (npKronVec q1.state q2.state))) := by
    rw [← reshape22_npKronVec]
    exact hsvd
  obtain ⟨hS0, hS1⟩ := svd_rank_one_singular_values hx hy hsvd'
  obtain ⟨hU, hV, -, -, hM⟩ := hsvd'
  have hent := svd_rank_one_entries hM hS0 hS1
  have hu := unitary_col_normSq hU 0
  obtain ⟨c, habs, hui, hwj⟩ := unit_rank_one_factor hx hy hu hent
  refine ⟨c, (starRingEnd ℂ) c, habs, ?_, ?_, ?_⟩
  · rw [Complex.abs_conj]
    exact habs
  · funext i
    show (svdFn (reshape22 (npKronVec q1.state q2.state))).U i 0 *
      ((Real.sqrt ((svdFn (reshape22 (npKronVec q1.state q2.state))).S 0) : ℝ) : ℂ) =
      c * q1.state i
    rw [hS0, Real.sqrt_one, Complex.ofReal_one, mul_one]
    exact hui i
  · funext j
    show (svdFn (reshape22 (npKronVec q1.state q2.state))).Vh 0 j *
      ((Real.sqrt ((svdFn (reshape22 (npKronVec q1.state q2.state))).S 0) : ℝ) : ℂ) =
      (starRingEnd ℂ) c * q2.state j
    rw [hS0, Real.sqrt_one, Complex.ofReal_one, mul_one]
    exact hwj j

/-- The trivial svd stand-in is a valid SVD at the product state
`|0⟩ ⊗ |0⟩` (whose reshaped matrix is `diag(1, 0)`). -/
theorem svdTriv_isSVD2 :
    IsSVD2 (reshape22 (npKronVec qZero.state qZero.state))
      (svdTriv (reshape22 (npKronVec qZero.state qZero.state))) := by
  refine ⟨one_mem _, one_mem _, ?_, ?_, ?_⟩
  · show (![(1 : ℝ), 0] 1) ≤ (![(1 : ℝ), 0] 0)
    norm_num
  · show (0 : ℝ) ≤ ![(1 : ℝ), 0] 1
    norm_num
  · show reshape22 (npKronVec qZero.state qZero.state) =
      1 * Matrix.diagonal (fun i => ((![(1 : ℝ), 0] i : ℝ) : ℂ)) * 1
    rw [Matrix.one_mul, Matrix.mul_one, reshape22_npKronVec]
    funext i j
    fin_cases i <;> fin_cases j <;>
      simp [Matrix.diagonal, qZero, Qubit.state]

/-- Witness for C5 at the pair `|0⟩, |0⟩` with the trivial svd. -/
theorem svd_reprojection_roundtrip_witness :
    ∃ c1 c2 : ℂ, Complex.abs c1 = 1 ∧ Complex.abs c2 = 1 ∧
      ((unentangle_and_update svdTriv (npKronVec qZero.state qZero.state)).1 =
        fun i => c1 * qZero.state i) ∧
      ((unentangle_and_update svdTriv (npKronVec qZero.state qZero.state)).2 =
        fun j => c2 * qZero.state j) :=
  svd_reprojection_roundtrip qZero qZero svdTriv qZero_normSq qZero_normSq
    svdTriv_isSVD2

end TRGISim

